import Mathlib

/-!
Shallow embedding of `cachesim.c`, a set-associative cache simulator with LRU
replacement, together with proofs about the claims of its specification.

The embedding mirrors `read_file` (the per-record simulation loop) and the
argument validation in `main`.  Machine integers are modelled as `Nat`; the
places where C integer width matters (the `int`-typed mask `(1 << s) - 1` and
the 64-bit shifts of the address decoder) are modelled separately by `decodeC`,
which returns `none` exactly when the C computation is undefined
(signed overflow of `1 << s`, or a shift count reaching the operand width).
-/

namespace Cachesim

/-- One cache line, as in the C struct `cache_line`:
`valid_bit` (a char holding 0 or 1), `lru` (the `ull` timestamp last written
from `global_timer`), and `tag`. -/
structure CacheLine where
  valid_bit : Nat
  lru : Nat
  tag : Nat
deriving DecidableEq, Repr

/-- Kind of a trace record: `L`, `S`, `M`, or an instruction/other line
(the C loop treats every character other than `L`/`S`/`M` the same way,
only bumping the global timer). -/
inductive AccessKind where
  | load
  | store
  | modify
  | instr
deriving DecidableEq, Repr

/-- One parsed trace record: kind, address and size.  The size is parsed by
the C code but never used. -/
structure AccessRecord where
  kind : AccessKind
  address : Nat
  size : Nat
deriving DecidableEq, Repr

/-- Whole simulator state: the cache (a list of sets, each a list of lines)
plus the four global counters of the C program. -/
structure SimState where
  cache : List (List CacheLine)
  hit_count : Nat
  miss_count : Nat
  eviction_count : Nat
  global_timer : Nat
deriving DecidableEq, Repr

/-- The all-zero line the C `main` initializes every slot to. -/
def initLine : CacheLine := ⟨0, 0, 0⟩

/-- Initial simulator state: `S` sets of `E` lines, all fields zero. -/
def initState (S E : Nat) : SimState :=
  { cache := List.replicate S (List.replicate E initLine)
    hit_count := 0
    miss_count := 0
    eviction_count := 0
    global_timer := 0 }

/-- Result of the first scan over a set (the first `for` loop of
`read_file`): the updated lines, whether the access was dealt with
(`if_dealt_with`), and the hit/miss increments it produced. -/
structure Pass1Result where
  lines : List CacheLine
  dealt : Bool
  hits : Nat
  misses : Nat
deriving DecidableEq, Repr

/-- First scan of `read_file`: at the first line whose tag equals the accessed
tag, either record a hit (valid line, refresh `lru`) or revalidate the line
(invalid line with matching tag: count a miss, set `valid_bit` and `lru`).
Later lines are untouched because `if_dealt_with` guards both branches. -/
def pass1 (t tm : Nat) : List CacheLine → Pass1Result
  | [] => ⟨[], false, 0, 0⟩
  | l :: ls =>
    if l.tag = t ∧ l.valid_bit = 1 then
      ⟨{ l with lru := tm } :: ls, true, 1, 0⟩
    else if l.tag = t ∧ l.valid_bit ≠ 1 then
      ⟨{ l with valid_bit := 1, lru := tm } :: ls, true, 0, 1⟩
    else
      let r := pass1 t tm ls
      ⟨l :: r.lines, r.dealt, r.hits, r.misses⟩

/-- Result of the free-slot scan: updated lines and whether a slot with
`lru == 0` was filled. -/
structure FillResult where
  lines : List CacheLine
  filled : Bool
deriving DecidableEq, Repr

/-- Free-slot scan of `read_file`: fill the first line with `lru == 0`
(the "never accessed" sentinel), writing tag, valid bit and timestamp. -/
def fillFree (t tm : Nat) : List CacheLine → FillResult
  | [] => ⟨[], false⟩
  | l :: ls =>
    if l.lru = 0 then ⟨(⟨1, tm, t⟩ : CacheLine) :: ls, true⟩
    else
      let r := fillFree t tm ls
      ⟨l :: r.lines, r.filled⟩

/-- The running-minimum loop of the eviction branch: `i` is the index of the
next line, `mi`/`mv` the index and `lru` of the minimum so far; the index is
replaced only on a strictly smaller `lru`, so the first minimum wins. -/
def argminAux : List CacheLine → Nat → Nat → Nat → Nat
  | [], _, mi, _ => mi
  | l :: ls, i, mi, mv =>
    if l.lru < mv then argminAux ls (i + 1) i l.lru
    else argminAux ls (i + 1) mi mv

/-- The `min_index` computed by the eviction branch of `read_file`:
start at slot 0 and scan slots `1..E-1` keeping the strictly smallest `lru`. -/
def minLruIndex : List CacheLine → Nat
  | [] => 0
  | l :: ls => argminAux ls 1 0 l.lru

/-- Counter/line effect of one L/S/M access on one set: the per-access part
of `read_file` between the timer bump and the Modify second pass. -/
structure AccessResult where
  lines : List CacheLine
  hits : Nat
  misses : Nat
  evictions : Nat
deriving DecidableEq, Repr

/-- Apply one decoded access of tag `t` at time `tm` to a set, exactly as
`read_file` does: first scan, then free-slot scan, then eviction of the
line at `min_index`. -/
def accessSet (t tm : Nat) (ls : List CacheLine) : AccessResult :=
  let p := pass1 t tm ls
  if p.dealt then ⟨p.lines, p.hits, p.misses, 0⟩
  else
    let f := fillFree t tm p.lines
    if f.filled then ⟨f.lines, 0, 1, 0⟩
    else ⟨f.lines.set (minLruIndex f.lines) ⟨1, tm, t⟩, 0, 1, 1⟩

/-- Second scan performed for `M` records only: a hit-only lookup that
refreshes `lru` of the first valid line with the accessed tag. -/
def pass2 (t tm : Nat) : List CacheLine → List CacheLine × Nat
  | [] => ([], 0)
  | l :: ls =>
    if l.tag = t ∧ l.valid_bit = 1 then ({ l with lru := tm } :: ls, 1)
    else
      let r := pass2 t tm ls
      (l :: r.1, r.2)

/-- Tag of an address: `address >> (b + s)` (line 71 of the C source),
on ideal integers. -/
def decodeTag (s b addr : Nat) : Nat := addr >>> (b + s)

/-- Set index of an address: `(address >> b) & ((1 << s) - 1)` (line 72),
on ideal integers, where the mask equals reduction mod `2^s`. -/
def decodeIndex (s b addr : Nat) : Nat := (addr >>> b) % 2 ^ s

/-- The L/S/M part of one loop iteration of `read_file`: bump the global
timer, decode the address, and apply the access to the selected set. -/
def accessState (s b : Nat) (st : SimState) (addr : Nat) : SimState :=
  let t := decodeTag s b addr
  let idx := decodeIndex s b addr
  let tm := st.global_timer + 1
  let a := accessSet t tm (st.cache.getD idx [])
  { cache := st.cache.set idx a.lines
    hit_count := st.hit_count + a.hits
    miss_count := st.miss_count + a.misses
    eviction_count := st.eviction_count + a.evictions
    global_timer := tm }

/-- The Modify-only second lookup of `read_file`: the global timer is NOT
bumped again; only `hit_count` and the matched line's `lru` may change. -/
def modifyPass (s b : Nat) (st : SimState) (addr : Nat) : SimState :=
  let t := decodeTag s b addr
  let idx := decodeIndex s b addr
  let m := pass2 t st.global_timer (st.cache.getD idx [])
  { st with
    cache := st.cache.set idx m.1
    hit_count := st.hit_count + m.2 }

/-- One full loop iteration of `read_file` on a parsed record.  The global
timer is incremented for EVERY record, including instruction records, before
the kind is examined (line 75 of the C source precedes the kind test). -/
def processRecord (s b : Nat) (st : SimState) (r : AccessRecord) : SimState :=
  if r.kind = AccessKind.instr then
    { st with global_timer := st.global_timer + 1 }
  else if r.kind = AccessKind.modify then
    modifyPass s b (accessState s b st r.address) r.address
  else
    accessState s b st r.address

/-- Run `read_file` over a whole list of parsed records. -/
def processTrace (s b : Nat) (st : SimState) (tr : List AccessRecord) : SimState :=
  tr.foldl (processRecord s b) st

/-- The address decoder with C machine-integer semantics: `none` exactly when
the C computation is undefined — `1 << s` on a 32-bit signed `int` overflows
for `s ≥ 31`, and shifting the 64-bit address by a count of 64 or more
(in `address >> b` or `address >> (b + s)`) is undefined. -/
def decodeC (s b addr : Nat) : Option (Nat × Nat) :=
  if 31 ≤ s then none
  else if 64 ≤ b then none
  else if 64 ≤ b + s then none
  else some (addr >>> (b + s), (addr >>> b) &&& ((1 <<< s) - 1))

/-- The required-argument check of `main` (line 211):
the run is aborted iff `s == 0 || E == 0 || b == 0` or no trace file was
given.  Negative values pass this test. -/
def argsRejected (s E b : Int) (traceGiven : Bool) : Bool :=
  s == 0 || E == 0 || b == 0 || !traceGiven

/-- Cost of one record toward `hits + misses`: 1 for Load/Store, 2 for
Modify, 0 for instruction records. -/
def recCost (r : AccessRecord) : Nat :=
  match r.kind with
  | AccessKind.load => 1
  | AccessKind.store => 1
  | AccessKind.modify => 2
  | AccessKind.instr => 0

/-- Number of Load records in a trace. -/
def countLoads (tr : List AccessRecord) : Nat :=
  tr.countP (fun r => r.kind == AccessKind.load)

/-- Number of Store records in a trace. -/
def countStores (tr : List AccessRecord) : Nat :=
  tr.countP (fun r => r.kind == AccessKind.store)

/-- Number of Modify records in a trace. -/
def countModifies (tr : List AccessRecord) : Nat :=
  tr.countP (fun r => r.kind == AccessKind.modify)

/-- Well-formedness of a single line in a reachable state: either the line
was never touched (all fields zero, as initialized by `main`) or it is valid
with a nonzero timestamp. -/
def lineWF (l : CacheLine) : Prop :=
  (l.valid_bit = 0 ∧ l.lru = 0 ∧ l.tag = 0) ∨ (l.valid_bit = 1 ∧ l.lru ≠ 0)

instance (l : CacheLine) : Decidable (lineWF l) := by
  unfold lineWF
  infer_instance

/-- Ordered relation between two lines of the same set (earlier slot first):
untouched slots form a suffix, and two valid lines never share a tag. -/
def lineRel (a c : CacheLine) : Prop :=
  (a.valid_bit = 0 → c.valid_bit = 0) ∧
  (a.valid_bit = 1 → c.valid_bit = 1 → a.tag ≠ c.tag)

/-- Well-formedness of a reachable simulator state with geometry `2^s` sets
of `E` lines. -/
def stateWF (S E : Nat) (st : SimState) : Prop :=
  st.cache.length = S ∧
  ∀ ls ∈ st.cache, ls.length = E ∧ (∀ x ∈ ls, lineWF x) ∧ List.Pairwise lineRel ls

/-- Case analysis of the first scan: either no line's tag matches and the
scan is a no-op, or the set splits around the first matching line, which is
updated by the hit branch or the revalidation branch. -/
lemma pass1_spec (t tm : Nat) (ls : List CacheLine) :
    (pass1 t tm ls = ⟨ls, false, 0, 0⟩ ∧ ∀ x ∈ ls, x.tag ≠ t) ∨
    (∃ pre l post, ls = pre ++ l :: post ∧ (∀ x ∈ pre, x.tag ≠ t) ∧ l.tag = t ∧
      ((l.valid_bit = 1 ∧
         pass1 t tm ls = ⟨pre ++ { l with lru := tm } :: post, true, 1, 0⟩) ∨
       (l.valid_bit ≠ 1 ∧
         pass1 t tm ls = ⟨pre ++ { l with valid_bit := 1, lru := tm } :: post, true, 0, 1⟩))) := by
  induction ls with
  | nil => exact Or.inl ⟨rfl, by simp⟩
  | cons l ls ih =>
    by_cases hm : l.tag = t
    · by_cases hv : l.valid_bit = 1
      · exact Or.inr ⟨[], l, ls, rfl, by simp, hm, Or.inl ⟨hv, by simp [pass1, hm, hv]⟩⟩
      · exact Or.inr ⟨[], l, ls, rfl, by simp, hm, Or.inr ⟨hv, by simp [pass1, hm, hv]⟩⟩
    · have hp : pass1 t tm (l :: ls) =
          ⟨l :: (pass1 t tm ls).lines, (pass1 t tm ls).dealt,
            (pass1 t tm ls).hits, (pass1 t tm ls).misses⟩ := by
        simp [pass1, hm]
      rcases ih with ⟨heq, hall⟩ | ⟨pre, x, post, hdec, hpre, hx, hbr⟩
      · refine Or.inl ⟨?_, ?_⟩
        · rw [hp, heq]
        · intro y hy
          rcases List.mem_cons.mp hy with rfl | h
          · exact hm
          · exact hall y h
      · refine Or.inr ⟨l :: pre, x, post, by rw [hdec, List.cons_append], ?_, hx, ?_⟩
        · intro y hy
          rcases List.mem_cons.mp hy with rfl | h
          · exact hm
          · exact hpre y h
        · rcases hbr with ⟨hv, he⟩ | ⟨hv, he⟩
          · refine Or.inl ⟨hv, ?_⟩
            rw [hp, he]; simp
          · refine Or.inr ⟨hv, ?_⟩
            rw [hp, he]; simp

/-- Case analysis of the free-slot scan: either no line has the `lru == 0`
sentinel and the scan is a no-op, or the set splits around the first such
line, which is overwritten with the new tag, valid bit and timestamp. -/
lemma fillFree_spec (t tm : Nat) (ls : List CacheLine) :
    (fillFree t tm ls = ⟨ls, false⟩ ∧ ∀ x ∈ ls, x.lru ≠ 0) ∨
    (∃ pre l post, ls = pre ++ l :: post ∧ (∀ x ∈ pre, x.lru ≠ 0) ∧ l.lru = 0 ∧
      fillFree t tm ls = ⟨pre ++ (⟨1, tm, t⟩ : CacheLine) :: post, true⟩) := by
  induction ls with
  | nil => exact Or.inl ⟨rfl, by simp⟩
  | cons l ls ih =>
    by_cases hz : l.lru = 0
    · exact Or.inr ⟨[], l, ls, rfl, by simp, hz, by simp [fillFree, hz]⟩
    · have hp : fillFree t tm (l :: ls) =
          ⟨l :: (fillFree t tm ls).lines, (fillFree t tm ls).filled⟩ := by
        simp [fillFree, hz]
      rcases ih with ⟨heq, hall⟩ | ⟨pre, x, post, hdec, hpre, hx, he⟩
      · refine Or.inl ⟨by rw [hp, heq], ?_⟩
        intro y hy
        rcases List.mem_cons.mp hy with rfl | h
        · exact hz
        · exact hall y h
      · refine Or.inr ⟨l :: pre, x, post, by rw [hdec, List.cons_append], ?_, hx, ?_⟩
        · intro y hy
          rcases List.mem_cons.mp hy with rfl | h
          · exact hz
          · exact hpre y h
        · rw [hp, he]; simp

/-- Case analysis of the Modify second scan: either no valid line carries the
tag and the scan is a no-op without a hit, or the set splits around the first
valid matching line, whose timestamp is refreshed while a hit is counted. -/
lemma pass2_spec (t tm : Nat) (ls : List CacheLine) :
    (pass2 t tm ls = (ls, 0) ∧ ∀ x ∈ ls, ¬(x.tag = t ∧ x.valid_bit = 1)) ∨
    (∃ pre l post, ls = pre ++ l :: post ∧
      (∀ x ∈ pre, ¬(x.tag = t ∧ x.valid_bit = 1)) ∧ l.tag = t ∧ l.valid_bit = 1 ∧
      pass2 t tm ls = (pre ++ { l with lru := tm } :: post, 1)) := by
  induction ls with
  | nil => exact Or.inl ⟨rfl, by simp⟩
  | cons l ls ih =>
    by_cases hm : l.tag = t ∧ l.valid_bit = 1
    · exact Or.inr ⟨[], l, ls, rfl, by simp, hm.1, hm.2, by simp [pass2, hm]⟩
    · have hp : pass2 t tm (l :: ls) =
          (l :: (pass2 t tm ls).1, (pass2 t tm ls).2) := by
        simp [pass2, hm]
      rcases ih with ⟨heq, hall⟩ | ⟨pre, x, post, hdec, hpre, hx, hv, he⟩
      · refine Or.inl ⟨by rw [hp, heq], ?_⟩
        intro y hy
        rcases List.mem_cons.mp hy with rfl | h
        · exact hm
        · exact hall y h
      · refine Or.inr ⟨l :: pre, x, post, by rw [hdec, List.cons_append], ?_, hx, hv, ?_⟩
        · intro y hy
          rcases List.mem_cons.mp hy with rfl | h
          · exact hm
          · exact hpre y h
        · rw [hp, he]; simp

/-- An in-bounds `getD` is a member of the list. -/
lemma getD_mem {α : Type} {ls : List α} {j : Nat} (h : j < ls.length) (d : α) :
    ls.getD j d ∈ ls := by
  induction ls generalizing j with
  | nil => simp at h
  | cons l ls ih =>
    cases j with
    | zero => simp
    | succ j =>
      simp only [List.getD_cons_succ]
      exact List.mem_cons_of_mem _ (ih (by simpa using h))

/-- Reading back an in-bounds `List.set` at the written index. -/
lemma getD_set_self {α : Type} (c : List α) {i : Nat} (h : i < c.length) (a d : α) :
    (c.set i a).getD i d = a := by
  induction c generalizing i with
  | nil => simp at h
  | cons l c ih =>
    cases i with
    | zero => simp
    | succ i => simpa using ih (by simpa using h)

/-- An in-bounds `List.set` splits the list around the replaced element. -/
lemma set_decomp {α : Type} (ls : List α) {i : Nat} (h : i < ls.length) (y : α) :
    ∃ pre x post, ls = pre ++ x :: post ∧ pre.length = i ∧
      ls.set i y = pre ++ y :: post := by
  induction ls generalizing i with
  | nil => simp at h
  | cons l ls ih =>
    cases i with
    | zero => exact ⟨[], l, ls, rfl, rfl, rfl⟩
    | succ i =>
      obtain ⟨pre, x, post, hdec, hlen, hset⟩ := ih (by simpa using h)
      refine ⟨l :: pre, x, post, by rw [List.cons_append, ← hdec], by simp [hlen], ?_⟩
      simp only [List.set_cons_succ, List.cons_append, hset]

/-- The running-minimum loop returns either its seed (when nothing in the
remaining lines is strictly smaller) or `i + k` for the leftmost strict
minimum at offset `k` in the remaining lines. -/
lemma argminAux_spec (ls : List CacheLine) : ∀ i mi mv : Nat,
    (argminAux ls i mi mv = mi ∧ ∀ x ∈ ls, mv ≤ x.lru) ∨
    (∃ k, k < ls.length ∧ argminAux ls i mi mv = i + k ∧
      (ls.getD k initLine).lru < mv ∧
      (∀ j, j < ls.length → (ls.getD k initLine).lru ≤ (ls.getD j initLine).lru) ∧
      (∀ j, j < k → (ls.getD k initLine).lru < (ls.getD j initLine).lru)) := by
  induction ls with
  | nil => exact fun i mi mv => Or.inl ⟨rfl, by simp⟩
  | cons l ls ih =>
    intro i mi mv
    by_cases hlt : l.lru < mv
    · have h1 : argminAux (l :: ls) i mi mv = argminAux ls (i + 1) i l.lru := by
        simp [argminAux, hlt]
      rcases ih (i + 1) i l.lru with ⟨heq, hall⟩ | ⟨k, hk, heq, hv, hmin, hstrict⟩
      · refine Or.inr ⟨0, by simp, by rw [h1, heq]; omega, by simpa using hlt, ?_, ?_⟩
        · intro j hj
          cases j with
          | zero => simp
          | succ j =>
            simp only [List.getD_cons_succ, List.getD_cons_zero]
            exact hall _ (getD_mem (by simpa using hj) initLine)
        · intro j hj
          exact absurd hj (Nat.not_lt_zero j)
      · refine Or.inr ⟨k + 1, by simpa using hk, by rw [h1, heq]; omega, ?_, ?_, ?_⟩
        · simp only [List.getD_cons_succ]
          exact hv.trans hlt
        · intro j hj
          cases j with
          | zero =>
            simp only [List.getD_cons_succ, List.getD_cons_zero]
            exact le_of_lt hv
          | succ j =>
            simp only [List.getD_cons_succ]
            exact hmin j (by simpa using hj)
        · intro j hj
          cases j with
          | zero =>
            simp only [List.getD_cons_succ, List.getD_cons_zero]
            exact hv
          | succ j =>
            simp only [List.getD_cons_succ]
            exact hstrict j (by omega)
    · have h1 : argminAux (l :: ls) i mi mv = argminAux ls (i + 1) mi mv := by
        simp [argminAux, hlt]
      have hle : mv ≤ l.lru := Nat.le_of_not_lt hlt
      rcases ih (i + 1) mi mv with ⟨heq, hall⟩ | ⟨k, hk, heq, hv, hmin, hstrict⟩
      · refine Or.inl ⟨by rw [h1, heq], ?_⟩
        intro x hx
        rcases List.mem_cons.mp hx with rfl | h
        · exact hle
        · exact hall x h
      · refine Or.inr ⟨k + 1, by simpa using hk, by rw [h1, heq]; omega, ?_, ?_, ?_⟩
        · simp only [List.getD_cons_succ]
          exact hv
        · intro j hj
          cases j with
          | zero =>
            simp only [List.getD_cons_succ, List.getD_cons_zero]
            exact le_of_lt (hv.trans_le hle)
          | succ j =>
            simp only [List.getD_cons_succ]
            exact hmin j (by simpa using hj)
        · intro j hj
          cases j with
          | zero =>
            simp only [List.getD_cons_succ, List.getD_cons_zero]
            exact hv.trans_le hle
          | succ j =>
            simp only [List.getD_cons_succ]
            exact hstrict j (by omega)

/-- The victim slot of the eviction branch: in bounds, of minimal `lru`,
and every earlier slot has a strictly larger `lru` (first-index tie-break). -/
lemma minLruIndex_spec (ls : List CacheLine) (h : ls ≠ []) :
    minLruIndex ls < ls.length ∧
    (∀ j, j < ls.length →
      (ls.getD (minLruIndex ls) initLine).lru ≤ (ls.getD j initLine).lru) ∧
    (∀ j, j < minLruIndex ls →
      (ls.getD (minLruIndex ls) initLine).lru < (ls.getD j initLine).lru) := by
  cases ls with
  | nil => exact absurd rfl h
  | cons l ls =>
    have hdef : minLruIndex (l :: ls) = argminAux ls 1 0 l.lru := rfl
    rcases argminAux_spec ls 1 0 l.lru with ⟨heq, hall⟩ | ⟨k, hk, heq, hv, hmin, hstrict⟩
    · rw [hdef, heq]
      refine ⟨by simp, ?_, ?_⟩
      · intro j hj
        cases j with
        | zero => simp
        | succ j =>
          simp only [List.getD_cons_succ, List.getD_cons_zero]
          exact hall _ (getD_mem (by simpa using hj) initLine)
      · intro j hj
        exact absurd hj (Nat.not_lt_zero j)
    · have his : (1 : Nat) + k = k + 1 := Nat.add_comm 1 k
      rw [hdef, heq, his]
      refine ⟨by simpa using hk, ?_, ?_⟩
      · intro j hj
        cases j with
        | zero =>
          simp only [List.getD_cons_succ, List.getD_cons_zero]
          exact le_of_lt hv
        | succ j =>
          simp only [List.getD_cons_succ]
          exact hmin j (by simpa using hj)
      · intro j hj
        cases j with
        | zero =>
          simp only [List.getD_cons_succ, List.getD_cons_zero]
          exact hv
        | succ j =>
          simp only [List.getD_cons_succ]
          exact hstrict j (by omega)

/-- `accessSet` when the first scan dealt with the access. -/
lemma accessSet_of_dealt {t tm : Nat} {ls L : List CacheLine} {h m : Nat}
    (hp : pass1 t tm ls = ⟨L, true, h, m⟩) :
    accessSet t tm ls = ⟨L, h, m, 0⟩ := by
  simp [accessSet, hp]

/-- `accessSet` when the first scan found nothing and a free slot was filled. -/
lemma accessSet_of_fill {t tm : Nat} {ls L : List CacheLine}
    (hp : pass1 t tm ls = ⟨ls, false, 0, 0⟩)
    (hf : fillFree t tm ls = ⟨L, true⟩) :
    accessSet t tm ls = ⟨L, 0, 1, 0⟩ := by
  simp [accessSet, hp, hf]

/-- `accessSet` when the first scan found nothing and no slot was free:
the eviction branch replaces the line at `min_index`. -/
lemma accessSet_of_evict {t tm : Nat} {ls : List CacheLine}
    (hp : pass1 t tm ls = ⟨ls, false, 0, 0⟩)
    (hf : fillFree t tm ls = ⟨ls, false⟩) :
    accessSet t tm ls = ⟨ls.set (minLruIndex ls) ⟨1, tm, t⟩, 0, 1, 1⟩ := by
  simp [accessSet, hp, hf]

/-- The per-set access never changes the number of lines. -/
lemma accessSet_length (t tm : Nat) (ls : List CacheLine) :
    (accessSet t tm ls).lines.length = ls.length := by
  rcases pass1_spec t tm ls with ⟨hp, _⟩ | ⟨pre, l, post, hdec, _, _, hbr⟩
  · rcases fillFree_spec t tm ls with ⟨hf, _⟩ | ⟨pre, l, post, hdec, _, _, hf⟩
    · rw [accessSet_of_evict hp hf]
      simp
    · rw [accessSet_of_fill hp hf]
      simp [hdec]
  · rcases hbr with ⟨_, hp⟩ | ⟨_, hp⟩ <;> rw [accessSet_of_dealt hp] <;> simp [hdec]

/-- The Modify second scan never changes the number of lines. -/
lemma pass2_length (t tm : Nat) (ls : List CacheLine) :
    (pass2 t tm ls).1.length = ls.length := by
  rcases pass2_spec t tm ls with ⟨hp, _⟩ | ⟨pre, l, post, hdec, _, _, _, hp⟩
  · rw [hp]
  · rw [hp]
    simp [hdec]

/-- Split a pairwise chain around a distinguished middle element. -/
lemma pairwise_decomp {pre post : List CacheLine} {l : CacheLine}
    (hP : List.Pairwise lineRel (pre ++ l :: post)) :
    List.Pairwise lineRel pre ∧ List.Pairwise lineRel post ∧
    (∀ y ∈ post, lineRel l y) ∧ (∀ a ∈ pre, lineRel a l) ∧
    (∀ a ∈ pre, ∀ y ∈ post, lineRel a y) := by
  rw [List.pairwise_append, List.pairwise_cons] at hP
  obtain ⟨Pa, ⟨hly, Pb⟩, hcross⟩ := hP
  exact ⟨Pa, Pb, hly, fun a ha => hcross a ha l (by simp),
    fun a ha y hy => hcross a ha y (by simp [hy])⟩

/-- Rebuild a pairwise chain around a replaced middle element. -/
lemma pairwise_build {pre post : List CacheLine} {l2 : CacheLine}
    (Pa : List.Pairwise lineRel pre) (Pb : List.Pairwise lineRel post)
    (hly : ∀ y ∈ post, lineRel l2 y) (hal : ∀ a ∈ pre, lineRel a l2)
    (hcross : ∀ a ∈ pre, ∀ y ∈ post, lineRel a y) :
    List.Pairwise lineRel (pre ++ l2 :: post) := by
  rw [List.pairwise_append, List.pairwise_cons]
  refine ⟨Pa, ⟨hly, Pb⟩, ?_⟩
  intro a ha y hy
  rcases List.mem_cons.mp hy with rfl | hy2
  · exact hal a ha
  · exact hcross a ha y hy2

/-- Membership in a middle-replaced chain comes from the old chain or is the
new element. -/
lemma mem_middle {pre post : List CacheLine} {l l2 x : CacheLine}
    (hx : x ∈ pre ++ l2 :: post) : x ∈ pre ++ l :: post ∨ x = l2 := by
  rcases List.mem_append.mp hx with h | h
  · exact Or.inl (List.mem_append.mpr (Or.inl h))
  · rcases List.mem_cons.mp h with rfl | h
    · exact Or.inr rfl
    · exact Or.inl (List.mem_append.mpr (Or.inr (List.mem_cons_of_mem _ h)))

/-- Inserting a fresh valid line with tag `t` in the middle of a well-formed
chain keeps the pairwise relation, provided every earlier slot is valid with
a different tag and no later slot carries tag `t` while valid. -/
lemma pairwise_insert {pre post : List CacheLine} {l l2 : CacheLine}
    (hP : List.Pairwise lineRel (pre ++ l :: post))
    (hval : l2.valid_bit = 1)
    (hpreV : ∀ a ∈ pre, a.valid_bit = 1)
    (hpreT : ∀ a ∈ pre, a.tag ≠ l2.tag)
    (hpost : ∀ y ∈ post, y.valid_bit = 0 ∨ l2.tag ≠ y.tag) :
    List.Pairwise lineRel (pre ++ l2 :: post) := by
  obtain ⟨Pa, Pb, hly, hal, hcross⟩ := pairwise_decomp hP
  refine pairwise_build Pa Pb ?_ ?_ hcross
  · intro y hy
    constructor
    · intro h0
      omega
    · intro _ hy1
      rcases hpost y hy with h0 | hne
      · omega
      · exact hne
  · intro a ha
    constructor
    · intro h0
      have := hpreV a ha
      omega
    · intro _ _
      exact hpreT a ha

/-- One L/S/M access on a well-formed set keeps every line well formed and
keeps the suffix/no-duplicate-tag pairwise relation. -/
lemma accessSet_WF (t : Nat) {tm : Nat} (htm : tm ≠ 0) (ls : List CacheLine)
    (hWF : ∀ x ∈ ls, lineWF x) (hP : List.Pairwise lineRel ls) :
    (∀ x ∈ (accessSet t tm ls).lines, lineWF x) ∧
    List.Pairwise lineRel (accessSet t tm ls).lines := by
  rcases pass1_spec t tm ls with ⟨hp1, hnone⟩ | ⟨pre, l, post, hdec, hpre, hx, hbr⟩
  · -- first scan found no tag match at all
    rcases fillFree_spec t tm ls with ⟨hf, hfree⟩ | ⟨pre, l, post, hdec, hpre, hl0, hf⟩
    · -- eviction branch: every slot has a nonzero timestamp, hence is valid
      rw [accessSet_of_evict hp1 hf]
      by_cases hne : ls = []
      · subst hne
        simp
      · obtain ⟨hv, -, -⟩ := minLruIndex_spec ls hne
        obtain ⟨pre, x, post, hdec, -, hset⟩ := set_decomp ls hv (⟨1, tm, t⟩ : CacheLine)
        rw [hset]
        subst hdec
        have hmemP : ∀ a ∈ pre, a ∈ pre ++ x :: post := by
          intro a ha
          exact List.mem_append.mpr (Or.inl ha)
        have hmemQ : ∀ y ∈ post, y ∈ pre ++ x :: post := by
          intro y hy
          exact List.mem_append.mpr (Or.inr (List.mem_cons_of_mem _ hy))
        constructor
        · intro y hy
          rcases mem_middle hy with hold | rfl
          · exact hWF y hold
          · exact Or.inr ⟨rfl, htm⟩
        · refine pairwise_insert hP rfl ?_ ?_ ?_
          · intro a ha
            rcases hWF a (hmemP a ha) with ⟨-, h0, -⟩ | ⟨h1, -⟩
            · exact absurd h0 (hfree a (hmemP a ha))
            · exact h1
          · intro a ha
            exact hnone a (hmemP a ha)
          · intro y hy
            exact Or.inr (Ne.symm (hnone y (hmemQ y hy)))
    · -- fill branch: the first slot with the zero sentinel is overwritten
      rw [accessSet_of_fill hp1 hf]
      subst hdec
      have hmemP : ∀ a ∈ pre, a ∈ pre ++ l :: post := by
        intro a ha
        exact List.mem_append.mpr (Or.inl ha)
      have hmemQ : ∀ y ∈ post, y ∈ pre ++ l :: post := by
        intro y hy
        exact List.mem_append.mpr (Or.inr (List.mem_cons_of_mem _ hy))
      constructor
      · intro y hy
        rcases mem_middle hy with hold | rfl
        · exact hWF y hold
        · exact Or.inr ⟨rfl, htm⟩
      · refine pairwise_insert hP rfl ?_ ?_ ?_
        · intro a ha
          rcases hWF a (hmemP a ha) with ⟨-, h0, -⟩ | ⟨h1, -⟩
          · exact absurd h0 (hpre a ha)
          · exact h1
        · intro a ha
          exact hnone a (hmemP a ha)
        · intro y hy
          exact Or.inr (Ne.symm (hnone y (hmemQ y hy)))
  · -- first scan matched the tag at the middle line
    rcases hbr with ⟨hv, hp⟩ | ⟨hv, hp⟩
    · -- hit: only the timestamp of a valid line changes
      rw [accessSet_of_dealt hp]
      subst hdec
      obtain ⟨Pa, Pb, hly, hal, hcross⟩ := pairwise_decomp hP
      constructor
      · intro y hy
        rcases mem_middle hy with hold | rfl
        · exact hWF y hold
        · exact Or.inr ⟨hv, htm⟩
      · exact pairwise_build Pa Pb hly hal hcross
    · -- revalidation: the first matching line was untouched, so its tag is 0
      rw [accessSet_of_dealt hp]
      have hmeml : l ∈ pre ++ l :: post := List.mem_append.mpr (Or.inr (by simp))
      rcases hWF l (hdec ▸ hmeml) with ⟨hv0, -, htag0⟩ | ⟨h1, -⟩
      · subst hdec
        have ht0 : t = 0 := hx ▸ htag0
        obtain ⟨Pa, Pb, hly, hal, hcross⟩ := pairwise_decomp hP
        constructor
        · intro y hy
          rcases mem_middle hy with hold | rfl
          · exact hWF y hold
          · exact Or.inr ⟨rfl, htm⟩
        · refine pairwise_insert hP rfl ?_ ?_ ?_
          · intro a ha
            rcases hWF a (List.mem_append.mpr (Or.inl ha)) with ⟨-, -, hat0⟩ | ⟨ha1, -⟩
            · exact absurd (hat0.trans ht0.symm) (hpre a ha)
            · exact ha1
          · intro a ha
            have : ({ l with valid_bit := 1, lru := tm } : CacheLine).tag = t := hx
            rw [this]
            exact hpre a ha
          · intro y hy
            exact Or.inl ((hly y hy).1 hv0)
      · exact absurd h1 hv

/-- The Modify second scan on a well-formed set keeps every line well formed
and keeps the pairwise relation. -/
lemma pass2_WF (t : Nat) {tm : Nat} (htm : tm ≠ 0) (ls : List CacheLine)
    (hWF : ∀ x ∈ ls, lineWF x) (hP : List.Pairwise lineRel ls) :
    (∀ x ∈ (pass2 t tm ls).1, lineWF x) ∧
    List.Pairwise lineRel (pass2 t tm ls).1 := by
  rcases pass2_spec t tm ls with ⟨hp, -⟩ | ⟨pre, l, post, hdec, -, hx, hv, hp⟩
  · rw [hp]
    exact ⟨hWF, hP⟩
  · rw [hp]
    subst hdec
    obtain ⟨Pa, Pb, hly, hal, hcross⟩ := pairwise_decomp hP
    constructor
    · intro y hy
      rcases mem_middle hy with hold | rfl
      · exact hWF y hold
      · exact Or.inr ⟨hv, htm⟩
    · exact pairwise_build Pa Pb hly hal hcross

/-- The decoded set index is always below the number of sets. -/
lemma decodeIndex_lt (s b addr : Nat) : decodeIndex s b addr < 2 ^ s :=
  Nat.mod_lt _ (pow_pos (by norm_num) s)

/-- The pairwise relation holds on the all-zero initial set. -/
lemma pairwise_replicate_init (n : Nat) :
    List.Pairwise lineRel (List.replicate n initLine) := by
  induction n with
  | zero => simp
  | succ n ih =>
    rw [List.replicate_succ]
    refine List.Pairwise.cons ?_ ih
    intro y hy
    rw [List.eq_of_mem_replicate hy]
    exact ⟨fun _ => rfl, fun h => absurd h (by decide)⟩

/-- The initial state is well formed. -/
lemma initState_WF (S E : Nat) : stateWF S E (initState S E) := by
  constructor
  · simp [initState]
  · intro ls hls
    rw [List.eq_of_mem_replicate hls]
    refine ⟨by simp, ?_, pairwise_replicate_init E⟩
    intro x hx
    rw [List.eq_of_mem_replicate hx]
    exact Or.inl ⟨rfl, rfl, rfl⟩

/-- The L/S/M first phase preserves state well-formedness. -/
lemma accessState_WF (s b : Nat) {E : Nat} {st : SimState}
    (h : stateWF (2 ^ s) E st) (addr : Nat) :
    stateWF (2 ^ s) E (accessState s b st addr) := by
  obtain ⟨hlen, hsets⟩ := h
  have hcache : (accessState s b st addr).cache
      = st.cache.set (decodeIndex s b addr)
          (accessSet (decodeTag s b addr) (st.global_timer + 1)
            (st.cache.getD (decodeIndex s b addr) [])).lines := rfl
  constructor
  · rw [hcache, List.length_set, hlen]
  · intro ls2 hmem
    rw [hcache] at hmem
    rcases List.mem_or_eq_of_mem_set hmem with hin | rfl
    · exact hsets ls2 hin
    · have hidx : decodeIndex s b addr < st.cache.length := by
        rw [hlen]
        exact decodeIndex_lt s b addr
      obtain ⟨hlenE, hwf, hpw⟩ := hsets _ (getD_mem hidx [])
      have hacc := accessSet_WF (decodeTag s b addr) (Nat.succ_ne_zero st.global_timer) _ hwf hpw
      exact ⟨by rw [accessSet_length]; exact hlenE, hacc.1, hacc.2⟩

/-- The Modify second phase preserves state well-formedness, provided the
global timer is nonzero (it always is after the first phase). -/
lemma modifyPass_WF (s b : Nat) {E : Nat} {st : SimState}
    (h : stateWF (2 ^ s) E st) (htm : st.global_timer ≠ 0) (addr : Nat) :
    stateWF (2 ^ s) E (modifyPass s b st addr) := by
  obtain ⟨hlen, hsets⟩ := h
  have hcache : (modifyPass s b st addr).cache
      = st.cache.set (decodeIndex s b addr)
          (pass2 (decodeTag s b addr) st.global_timer
            (st.cache.getD (decodeIndex s b addr) [])).1 := rfl
  constructor
  · rw [hcache, List.length_set, hlen]
  · intro ls2 hmem
    rw [hcache] at hmem
    rcases List.mem_or_eq_of_mem_set hmem with hin | rfl
    · exact hsets ls2 hin
    · have hidx : decodeIndex s b addr < st.cache.length := by
        rw [hlen]
        exact decodeIndex_lt s b addr
      obtain ⟨hlenE, hwf, hpw⟩ := hsets _ (getD_mem hidx [])
      have hacc := pass2_WF (decodeTag s b addr) htm _ hwf hpw
      exact ⟨by rw [pass2_length]; exact hlenE, hacc.1, hacc.2⟩

/-- One record preserves state well-formedness. -/
lemma processRecord_WF (s b : Nat) {E : Nat} {st : SimState}
    (h : stateWF (2 ^ s) E st) (r : AccessRecord) :
    stateWF (2 ^ s) E (processRecord s b st r) := by
  by_cases hi : r.kind = AccessKind.instr
  · simp only [processRecord, hi, if_pos]
    exact ⟨h.1, h.2⟩
  · by_cases hm : r.kind = AccessKind.modify
    · simp only [processRecord, hi, hm, if_neg, if_pos, if_true, if_false]
      exact modifyPass_WF s b (accessState_WF s b h r.address)
        (Nat.succ_ne_zero st.global_timer) r.address
    · simp only [processRecord, hi, hm, if_neg, if_false]
      exact accessState_WF s b h r.address

/-- A whole trace preserves state well-formedness. -/
lemma processTrace_WF (s b : Nat) {E : Nat} {st : SimState}
    (h : stateWF (2 ^ s) E st) (tr : List AccessRecord) :
    stateWF (2 ^ s) E (processTrace s b st tr) := by
  induction tr generalizing st with
  | nil => exact h
  | cons r tr ih => exact ih (processRecord_WF s b h r)

/-- Every L/S/M access produces exactly one hit or one miss in its first
phase: exactly one of the four branches of `read_file` fires. -/
lemma accessSet_hits_misses (t tm : Nat) (ls : List CacheLine) :
    (accessSet t tm ls).hits + (accessSet t tm ls).misses = 1 := by
  rcases pass1_spec t tm ls with ⟨hp1, -⟩ | ⟨pre, l, post, hdec, -, -, hbr⟩
  · rcases fillFree_spec t tm ls with ⟨hf, -⟩ | ⟨pre, l, post, hdec, -, -, hf⟩
    · rw [accessSet_of_evict hp1 hf]
      rfl
    · rw [accessSet_of_fill hp1 hf]
      rfl
  · rcases hbr with ⟨-, hp⟩ | ⟨-, hp⟩ <;> rw [accessSet_of_dealt hp] <;> rfl

/-- An access increments `evictions` only when it also increments `misses`. -/
lemma accessSet_evictions_le (t tm : Nat) (ls : List CacheLine) :
    (accessSet t tm ls).evictions ≤ (accessSet t tm ls).misses := by
  rcases pass1_spec t tm ls with ⟨hp1, -⟩ | ⟨pre, l, post, hdec, -, -, hbr⟩
  · rcases fillFree_spec t tm ls with ⟨hf, -⟩ | ⟨pre, l, post, hdec, -, -, hf⟩
    · rw [accessSet_of_evict hp1 hf]
    · rw [accessSet_of_fill hp1 hf]
      exact Nat.zero_le 1
  · rcases hbr with ⟨-, hp⟩ | ⟨-, hp⟩ <;> rw [accessSet_of_dealt hp] <;> exact Nat.zero_le _

/-- After the first phase of a nonempty set, the accessed tag is resident:
some line is valid and carries the tag. -/
lemma accessSet_resident (t tm : Nat) (ls : List CacheLine) (h : 1 ≤ ls.length) :
    ∃ x ∈ (accessSet t tm ls).lines, x.tag = t ∧ x.valid_bit = 1 := by
  rcases pass1_spec t tm ls with ⟨hp1, -⟩ | ⟨pre, l, post, hdec, -, hx, hbr⟩
  · rcases fillFree_spec t tm ls with ⟨hf, -⟩ | ⟨pre, l, post, hdec, -, -, hf⟩
    · rw [accessSet_of_evict hp1 hf]
      have hne : ls ≠ [] := by
        intro hnil
        rw [hnil] at h
        simp at h
      obtain ⟨hv, -, -⟩ := minLruIndex_spec ls hne
      obtain ⟨pre, x, post, -, -, hset⟩ := set_decomp ls hv (⟨1, tm, t⟩ : CacheLine)
      refine ⟨⟨1, tm, t⟩, ?_, rfl, rfl⟩
      rw [hset]
      exact List.mem_append.mpr (Or.inr (by simp))
    · rw [accessSet_of_fill hp1 hf]
      exact ⟨⟨1, tm, t⟩, List.mem_append.mpr (Or.inr (by simp)), rfl, rfl⟩
  · rcases hbr with ⟨hv, hp⟩ | ⟨-, hp⟩
    · rw [accessSet_of_dealt hp]
      exact ⟨{ l with lru := tm }, List.mem_append.mpr (Or.inr (by simp)), hx, hv⟩
    · rw [accessSet_of_dealt hp]
      exact ⟨{ l with valid_bit := 1, lru := tm },
        List.mem_append.mpr (Or.inr (by simp)), hx, rfl⟩

/-- When the tag is resident, the Modify second scan counts exactly one hit. -/
lemma pass2_hits_of_resident (t tm : Nat) (ls : List CacheLine)
    (h : ∃ x ∈ ls, x.tag = t ∧ x.valid_bit = 1) :
    (pass2 t tm ls).2 = 1 := by
  rcases pass2_spec t tm ls with ⟨-, hnone⟩ | ⟨pre, l, post, -, -, -, -, hp⟩
  · obtain ⟨x, hmem, hx⟩ := h
    exact absurd hx (hnone x hmem)
  · rw [hp]

/-- The cache array of the first phase, by definition. -/
lemma accessState_cache (s b : Nat) (st : SimState) (addr : Nat) :
    (accessState s b st addr).cache
      = st.cache.set (decodeIndex s b addr)
          (accessSet (decodeTag s b addr) (st.global_timer + 1)
            (st.cache.getD (decodeIndex s b addr) [])).lines := rfl

/-- One record adds exactly its cost (0, 1, or 2) to `hits + misses`. -/
lemma processRecord_count (s b : Nat) {E : Nat} {st : SimState} (hE : 1 ≤ E)
    (h : stateWF (2 ^ s) E st) (r : AccessRecord) :
    (processRecord s b st r).hit_count + (processRecord s b st r).miss_count
      = st.hit_count + st.miss_count + recCost r := by
  obtain ⟨hlen, hsets⟩ := h
  have hidx : decodeIndex s b r.address < st.cache.length := by
    rw [hlen]
    exact decodeIndex_lt s b r.address
  have hsum := accessSet_hits_misses (decodeTag s b r.address)
    (st.global_timer + 1) (st.cache.getD (decodeIndex s b r.address) [])
  cases hk : r.kind with
  | instr => simp [processRecord, hk, recCost]
  | load =>
    simp only [processRecord, hk, recCost, if_neg, if_false]
    show st.hit_count + _ + (st.miss_count + _) = _
    omega
  | store =>
    simp only [processRecord, hk, recCost, if_neg, if_false]
    show st.hit_count + _ + (st.miss_count + _) = _
    omega
  | modify =>
    simp only [processRecord, hk, recCost, if_neg, if_false, if_pos, if_true]
    have hbase : (st.cache.getD (decodeIndex s b r.address) []).length = E :=
      (hsets _ (getD_mem hidx [])).1
    have hres := accessSet_resident (decodeTag s b r.address)
      (st.global_timer + 1) (st.cache.getD (decodeIndex s b r.address) [])
      (by rw [hbase]; exact hE)
    have hget : (accessState s b st r.address).cache.getD
        (decodeIndex s b r.address) []
        = (accessSet (decodeTag s b r.address) (st.global_timer + 1)
            (st.cache.getD (decodeIndex s b r.address) [])).lines := by
      rw [accessState_cache]
      exact getD_set_self st.cache hidx _ []
    have hp2 : (pass2 (decodeTag s b r.address)
        (accessState s b st r.address).global_timer
        ((accessState s b st r.address).cache.getD
          (decodeIndex s b r.address) [])).2 = 1 := by
      rw [hget]
      exact pass2_hits_of_resident _ _ _ hres
    show (accessState s b st r.address).hit_count + _
        + (accessState s b st r.address).miss_count = _
    rw [hp2]
    show st.hit_count + _ + 1 + (st.miss_count + _) = _
    omega

/-- One record preserves `evictions ≤ misses`, from any state. -/
lemma processRecord_evict_le (s b : Nat) (st : SimState) (r : AccessRecord)
    (h : st.eviction_count ≤ st.miss_count) :
    (processRecord s b st r).eviction_count ≤ (processRecord s b st r).miss_count := by
  have hle := accessSet_evictions_le (decodeTag s b r.address)
    (st.global_timer + 1) (st.cache.getD (decodeIndex s b r.address) [])
  cases hk : r.kind with
  | instr => simpa [processRecord, hk] using h
  | load =>
    simp only [processRecord, hk, if_neg, if_false]
    show st.eviction_count + _ ≤ st.miss_count + _
    omega
  | store =>
    simp only [processRecord, hk, if_neg, if_false]
    show st.eviction_count + _ ≤ st.miss_count + _
    omega
  | modify =>
    simp only [processRecord, hk, if_neg, if_false, if_pos, if_true]
    show (accessState s b st r.address).eviction_count
        ≤ (accessState s b st r.address).miss_count
    show st.eviction_count + _ ≤ st.miss_count + _
    omega

/-- A whole trace adds exactly the summed record costs to `hits + misses`. -/
lemma processTrace_count (s b : Nat) {E : Nat} (hE : 1 ≤ E) {st : SimState}
    (h : stateWF (2 ^ s) E st) (tr : List AccessRecord) :
    (processTrace s b st tr).hit_count + (processTrace s b st tr).miss_count
      = st.hit_count + st.miss_count + (tr.map recCost).sum := by
  induction tr generalizing st with
  | nil => simp [processTrace]
  | cons r tr ih =>
    have hstep := processRecord_count s b hE h r
    have hrec := ih (processRecord_WF s b h r)
    show (processTrace s b (processRecord s b st r) tr).hit_count
        + (processTrace s b (processRecord s b st r) tr).miss_count = _
    rw [hrec, hstep]
    simp
    omega

/-- Summed record costs count Load/Store once and Modify twice. -/
lemma recCost_sum (tr : List AccessRecord) :
    (tr.map recCost).sum
      = countLoads tr + countStores tr + 2 * countModifies tr := by
  induction tr with
  | nil => simp [countLoads, countStores, countModifies]
  | cons r tr ih =>
    cases hk : r.kind <;>
      simp [countLoads, countStores, countModifies, List.countP_cons,
        recCost, hk] at ih ⊢ <;>
      omega

/-- C9: with geometry `s=0, b=0, E=1` and the trace `L 0` then `L 4`, the
core produces exactly `hits=0, misses=2, evictions=1`: the first access is a
cold miss, the second misses with an eviction since both addresses map to
the single set with different tags. -/
theorem C9_single_line_eviction :
    (processTrace 0 0 (initState (2 ^ 0) 1)
      [⟨AccessKind.load, 0, 1⟩, ⟨AccessKind.load, 4, 1⟩]).hit_count = 0 ∧
    (processTrace 0 0 (initState (2 ^ 0) 1)
      [⟨AccessKind.load, 0, 1⟩, ⟨AccessKind.load, 4, 1⟩]).miss_count = 2 ∧
    (processTrace 0 0 (initState (2 ^ 0) 1)
      [⟨AccessKind.load, 0, 1⟩, ⟨AccessKind.load, 4, 1⟩]).eviction_count = 1 := by
  decide

/-- C7: after processing any prefix of any trace from the initial state,
`evictions ≤ misses` holds: each access that increments `evictions` also
increments `misses`. -/
theorem C7_evictions_le_misses (s b S E n : Nat) (tr : List AccessRecord) :
    (processTrace s b (initState S E) (tr.take n)).eviction_count
      ≤ (processTrace s b (initState S E) (tr.take n)).miss_count := by
  have key : ∀ (l : List AccessRecord) (st : SimState),
      st.eviction_count ≤ st.miss_count →
      (processTrace s b st l).eviction_count
        ≤ (processTrace s b st l).miss_count := by
    intro l
    induction l with
    | nil => exact fun st h => h
    | cons r l ih => exact fun st h => ih _ (processRecord_evict_le s b st r h)
  exact key _ _ (Nat.le_refl 0)

/-- C2: for every trace processed from the initial all-invalid cache, the
final counters satisfy
`hits + misses = (Load records) + (Store records) + 2 * (Modify records)`:
each Load/Store contributes exactly one hit or miss, and each Modify
additionally contributes exactly one guaranteed hit on its second lookup. -/
theorem C2_conservation (s b E : Nat) (hE : 1 ≤ E) (tr : List AccessRecord) :
    (processTrace s b (initState (2 ^ s) E) tr).hit_count
      + (processTrace s b (initState (2 ^ s) E) tr).miss_count
      = countLoads tr + countStores tr + 2 * countModifies tr := by
  have h := processTrace_count s b hE (initState_WF (2 ^ s) E) tr
  rw [recCost_sum] at h
  simpa [initState] using h

/-- Witness for C2 at a concrete geometry and one Modify record. -/
theorem C2_conservation_witness :
    1 ≤ 1 ∧
    (processTrace 1 1 (initState (2 ^ 1) 1)
        [⟨AccessKind.modify, 0, 1⟩]).hit_count
      + (processTrace 1 1 (initState (2 ^ 1) 1)
        [⟨AccessKind.modify, 0, 1⟩]).miss_count
      = countLoads [⟨AccessKind.modify, 0, 1⟩]
        + countStores [⟨AccessKind.modify, 0, 1⟩]
        + 2 * countModifies [⟨AccessKind.modify, 0, 1⟩] :=
  ⟨Nat.le_refl 1, C2_conservation 1 1 1 (Nat.le_refl 1) [⟨AccessKind.modify, 0, 1⟩]⟩

/-- C6 counterexample: processing an Instruction record is NOT a complete
no-op: line 75 of `read_file` increments `global_timer` before the kind test,
so the timer changes even for an `I` record. -/
theorem C6_instruction_counterexample :
    ¬ ((processRecord 1 1 (initState 2 1)
        ⟨AccessKind.instr, 0, 1⟩).global_timer = (initState 2 1).global_timer) := by
  decide

/-- C6 amended: an Instruction record leaves `hits`, `misses`, `evictions`
and every cache line unchanged, but the global timer is incremented once per
record of any kind, Instruction records included. -/
theorem C6_instruction_amended (s b : Nat) (st : SimState) (r : AccessRecord)
    (h : r.kind = AccessKind.instr) :
    processRecord s b st r = { st with global_timer := st.global_timer + 1 } := by
  simp [processRecord, h]

/-- Witness for the amended C6 on a concrete record and state. -/
theorem C6_instruction_amended_witness :
    processRecord 1 1 (initState 2 1) ⟨AccessKind.instr, 0, 1⟩
      = { initState 2 1 with global_timer := (initState 2 1).global_timer + 1 } :=
  C6_instruction_amended 1 1 (initState 2 1) ⟨AccessKind.instr, 0, 1⟩ rfl

/-- C5 counterexample: geometry validation does NOT reject negative values:
`main` only tests `s == 0 || E == 0 || b == 0`, so `s = -1` passes the check
and the simulation proceeds. -/
theorem C5_geometry_counterexample :
    ¬ (∀ (s E b : Int), (s < 1 ∨ b < 1 ∨ E < 1) → argsRejected s E b true = true) :=
  fun h => absurd (h (-1) 1 1 (Or.inl (by norm_num))) (by decide)

/-- C5 amended: the run is aborted before cache construction exactly when
one of `s`, `E`, `b` equals zero (their unset default) or the trace file is
missing; negative geometry values are not rejected. -/
theorem C5_geometry_amended (s E b : Int) (tg : Bool) :
    argsRejected s E b tg = true ↔ (s = 0 ∨ E = 0 ∨ b = 0 ∨ tg = false) := by
  cases tg <;> simp [argsRejected, or_assoc]

/-- C4 counterexample: the decoder is NOT overflow-free on the whole stated
domain `s ≥ 1, b ≥ 1, s + b ≤ 64`: at `s = 1, b = 63` the tag computation
shifts the 64-bit address by 64, which is undefined in C. -/
theorem C4_decoder_overflow_counterexample :
    ¬ (∀ s b addr : Nat, 1 ≤ s → 1 ≤ b → s + b ≤ 64 → addr < 2 ^ 64 →
        decodeC s b addr = some (addr >>> (b + s), (addr >>> b) % 2 ^ s)) := by
  intro h
  have hc := h 1 63 1 (by norm_num) (by norm_num) (by norm_num) (by norm_num)
  rw [decodeC] at hc
  norm_num at hc
  exact Option.noConfusion hc

/-- C4 amended: for every 64-bit address and every geometry with
`s ≥ 1`, `b ≥ 1`, `s ≤ 30` and `s + b ≤ 63`, the decoder computes
`setIndex = (address >> b) mod 2^s` and `tag = address >> (b + s)` with no
arithmetic overflow (the bound `s ≤ 30` keeps `1 << s` inside a 32-bit
signed int, and `s + b ≤ 63` keeps the tag shift below the operand width). -/
theorem C4_decoder_amended (s b addr : Nat) (hs : 1 ≤ s) (hb : 1 ≤ b)
    (hs30 : s ≤ 30) (hsb : s + b ≤ 63) (haddr : addr < 2 ^ 64) :
    decodeC s b addr = some (addr >>> (b + s), (addr >>> b) % 2 ^ s) := by
  rw [decodeC, if_neg (by omega), if_neg (by omega), if_neg (by omega),
    Nat.one_shiftLeft, Nat.and_pow_two_sub_one_eq_mod]

/-- Witness for the amended C4 at a concrete geometry and address. -/
theorem C4_decoder_amended_witness :
    decodeC 4 4 12345 = some (12345 >>> 8, (12345 >>> 4) % 2 ^ 4) :=
  C4_decoder_amended 4 4 12345 (by norm_num) (by norm_num) (by norm_num)
    (by norm_num) (by norm_num)

/-- C10: in every reachable cache state, a line is valid iff its `lastUsed`
timestamp is nonzero, so the free-slot scan for `lastUsed == 0` selects
exactly the never-filled lines and never misidentifies a valid line as free. -/
theorem C10_valid_iff_lastUsed (s b E : Nat) (tr : List AccessRecord) :
    ∀ ls ∈ (processTrace s b (initState (2 ^ s) E) tr).cache,
      ∀ x ∈ ls, (x.valid_bit = 1 ↔ x.lru ≠ 0) := by
  intro ls hls x hx
  have hWF := processTrace_WF s b (initState_WF (2 ^ s) E) tr
  rcases (hWF.2 ls hls).2.1 x hx with ⟨h0, hz, -⟩ | ⟨h1, hnz⟩
  · constructor
    · intro h
      omega
    · intro h
      exact absurd hz h
  · exact ⟨fun _ => hnz, fun _ => h1⟩

/-- Witness for C10 on the state reached by one load. -/
theorem C10_valid_iff_lastUsed_witness :
    ((⟨1, 1, 0⟩ : CacheLine).valid_bit = 1 ↔ (⟨1, 1, 0⟩ : CacheLine).lru ≠ 0) :=
  C10_valid_iff_lastUsed 1 1 1 [⟨AccessKind.load, 0, 1⟩]
    [⟨1, 1, 0⟩] (by decide) ⟨1, 1, 0⟩ (by decide)

/-- C8: in every reachable cache state, no set contains two distinct valid
lines holding the same tag. -/
theorem C8_no_duplicate_tags (s b E : Nat) (tr : List AccessRecord) :
    ∀ ls ∈ (processTrace s b (initState (2 ^ s) E) tr).cache,
      ∀ i j : Nat, i < ls.length → j < ls.length → i ≠ j →
        (ls.getD i initLine).valid_bit = 1 → (ls.getD j initLine).valid_bit = 1 →
        (ls.getD i initLine).tag ≠ (ls.getD j initLine).tag := by
  intro ls hls i j hi hj hne hvi hvj
  have hWF := processTrace_WF s b (initState_WF (2 ^ s) E) tr
  have hpw := (hWF.2 ls hls).2.2
  rw [List.pairwise_iff_get] at hpw
  have hdi : ls.getD i initLine = ls.get ⟨i, hi⟩ := by
    rw [List.getD_eq_getElem, List.get_eq_getElem]
  have hdj : ls.getD j initLine = ls.get ⟨j, hj⟩ := by
    rw [List.getD_eq_getElem, List.get_eq_getElem]
  rw [hdi] at hvi ⊢
  rw [hdj] at hvj ⊢
  rcases Nat.lt_or_ge i j with hlt | hge
  · exact (hpw ⟨i, hi⟩ ⟨j, hj⟩ (Fin.mk_lt_mk.mpr hlt)).2 hvi hvj
  · have hlt2 : j < i := by omega
    exact Ne.symm ((hpw ⟨j, hj⟩ ⟨i, hi⟩ (Fin.mk_lt_mk.mpr hlt2)).2 hvj hvi)

/-- Witness for C8 on the state reached by two loads filling one set. -/
theorem C8_no_duplicate_tags_witness :
    (([⟨1, 1, 0⟩, ⟨1, 2, 2⟩] : List CacheLine).getD 0 initLine).tag
      ≠ (([⟨1, 1, 0⟩, ⟨1, 2, 2⟩] : List CacheLine).getD 1 initLine).tag :=
  C8_no_duplicate_tags 1 1 2 [⟨AccessKind.load, 0, 1⟩, ⟨AccessKind.load, 8, 1⟩]
    [⟨1, 1, 0⟩, ⟨1, 2, 2⟩] (by decide) 0 1 (by decide) (by decide) (by decide)
    (by decide) (by decide)

/-- Unfold the Modify second phase once the scan result is known. -/
lemma modifyPass_eq (s b : Nat) (st1 : SimState) (addr : Nat)
    {L : List CacheLine} {n : Nat}
    (hp : pass2 (decodeTag s b addr) st1.global_timer
        (st1.cache.getD (decodeIndex s b addr) []) = (L, n)) :
    modifyPass s b st1 addr
      = { st1 with
          cache := st1.cache.set (decodeIndex s b addr) L
          hit_count := st1.hit_count + n } := by
  have h0 : modifyPass s b st1 addr
      = { st1 with
          cache := st1.cache.set (decodeIndex s b addr)
            (pass2 (decodeTag s b addr) st1.global_timer
              (st1.cache.getD (decodeIndex s b addr) [])).1
          hit_count := st1.hit_count
            + (pass2 (decodeTag s b addr) st1.global_timer
              (st1.cache.getD (decodeIndex s b addr) [])).2 } := rfl
  rw [h0, hp]

/-- C3: for every Modify record (on a set with at least one line), after the
first lookup/fill/evict pass completes, exactly one additional hit-only
lookup pass runs on the same set and tag; it always finds a valid matching
line, increments `hits` by one, sets that line's `lastUsed` to the current
`globalTimer`, leaves `misses` and `evictions` unchanged, and the
`globalTimer` is not incremented a second time. -/
theorem C3_modify_second_lookup (s b : Nat) (st : SimState) (r : AccessRecord)
    (hk : r.kind = AccessKind.modify)
    (hlen : 1 ≤ (st.cache.getD (decodeIndex s b r.address) []).length) :
    processRecord s b st r
      = modifyPass s b (accessState s b st r.address) r.address ∧
    (accessState s b st r.address).global_timer = st.global_timer + 1 ∧
    ∃ pre y post,
      (accessState s b st r.address).cache.getD (decodeIndex s b r.address) []
        = pre ++ y :: post ∧
      (∀ x ∈ pre, ¬(x.tag = decodeTag s b r.address ∧ x.valid_bit = 1)) ∧
      y.tag = decodeTag s b r.address ∧
      y.valid_bit = 1 ∧
      (processRecord s b st r).cache
        = (accessState s b st r.address).cache.set (decodeIndex s b r.address)
            (pre ++ { y with lru := st.global_timer + 1 } :: post) ∧
      (processRecord s b st r).hit_count
        = (accessState s b st r.address).hit_count + 1 ∧
      (processRecord s b st r).miss_count
        = (accessState s b st r.address).miss_count ∧
      (processRecord s b st r).eviction_count
        = (accessState s b st r.address).eviction_count ∧
      (processRecord s b st r).global_timer
        = (accessState s b st r.address).global_timer := by
  have hPR : processRecord s b st r
      = modifyPass s b (accessState s b st r.address) r.address := by
    simp [processRecord, hk]
  have hidx : decodeIndex s b r.address < st.cache.length := by
    by_contra hge
    rw [List.getD_eq_default _ _ (Nat.le_of_not_lt hge)] at hlen
    simp at hlen
  have hget : (accessState s b st r.address).cache.getD
      (decodeIndex s b r.address) []
      = (accessSet (decodeTag s b r.address) (st.global_timer + 1)
          (st.cache.getD (decodeIndex s b r.address) [])).lines := by
    rw [accessState_cache]
    exact getD_set_self st.cache hidx _ []
  have hres := accessSet_resident (decodeTag s b r.address) (st.global_timer + 1)
    (st.cache.getD (decodeIndex s b r.address) []) hlen
  rcases pass2_spec (decodeTag s b r.address) (st.global_timer + 1)
      ((accessState s b st r.address).cache.getD (decodeIndex s b r.address) [])
    with ⟨-, hnone⟩ | ⟨pre, y, post, hdec, hpre, hy1, hy2, hp⟩
  · rw [hget] at hnone
    obtain ⟨x, hx, hx1, hx2⟩ := hres
    exact absurd ⟨hx1, hx2⟩ (hnone x hx)
  · have hmp := modifyPass_eq s b (accessState s b st r.address) r.address hp
    refine ⟨hPR, rfl, pre, y, post, hdec, hpre, hy1, hy2, ?_, ?_, ?_, ?_, ?_⟩
    · rw [hPR, hmp]
    · rw [hPR, hmp]
    · rw [hPR, hmp]
    · rw [hPR, hmp]
    · rw [hPR, hmp]

/-- Witness for C3 at geometry `s=1, b=1, E=1` on the record `M 0,1`. -/
theorem C3_modify_second_lookup_witness :
    processRecord 1 1 (initState (2 ^ 1) 1) ⟨AccessKind.modify, 0, 1⟩
      = modifyPass 1 1 (accessState 1 1 (initState (2 ^ 1) 1) 0) 0 ∧
    (accessState 1 1 (initState (2 ^ 1) 1) 0).global_timer
      = (initState (2 ^ 1) 1).global_timer + 1 :=
  ⟨(C3_modify_second_lookup 1 1 (initState (2 ^ 1) 1)
      ⟨AccessKind.modify, 0, 1⟩ rfl (by decide)).1,
   (C3_modify_second_lookup 1 1 (initState (2 ^ 1) 1)
      ⟨AccessKind.modify, 0, 1⟩ rfl (by decide)).2.1⟩

/-- Unfold the first phase once the per-set access result is known. -/
lemma accessState_eq (s b : Nat) (st : SimState) (addr : Nat)
    {L : List CacheLine} {h m e : Nat}
    (ha : accessSet (decodeTag s b addr) (st.global_timer + 1)
        (st.cache.getD (decodeIndex s b addr) []) = ⟨L, h, m, e⟩) :
    accessState s b st addr
      = { cache := st.cache.set (decodeIndex s b addr) L
          hit_count := st.hit_count + h
          miss_count := st.miss_count + m
          eviction_count := st.eviction_count + e
          global_timer := st.global_timer + 1 } := by
  have h0 : accessState s b st addr
      = { cache := st.cache.set (decodeIndex s b addr)
            (accessSet (decodeTag s b addr) (st.global_timer + 1)
              (st.cache.getD (decodeIndex s b addr) [])).lines
          hit_count := st.hit_count
            + (accessSet (decodeTag s b addr) (st.global_timer + 1)
              (st.cache.getD (decodeIndex s b addr) [])).hits
          miss_count := st.miss_count
            + (accessSet (decodeTag s b addr) (st.global_timer + 1)
              (st.cache.getD (decodeIndex s b addr) [])).misses
          eviction_count := st.eviction_count
            + (accessSet (decodeTag s b addr) (st.global_timer + 1)
              (st.cache.getD (decodeIndex s b addr) [])).evictions
          global_timer := st.global_timer + 1 } := rfl
  rw [h0, ha]

/-- C1: for every non-instruction access whose decoded tag is not resident in
its (well-formed, nonempty) set and whose set has no free slot (no line with
`lastUsed = 0`), the access increments both `misses` and `evictions` by
exactly one and replaces the line at `min_index`, which has the strictly
smallest `lastUsed` among all lines with ties broken by lowest slot index,
setting its tag to the accessed tag, valid to true, and `lastUsed` to the
current `globalTimer`; and in particular with `E = 2`, accessing tags
A (0), B (2), A again, then C (4) in one set evicts B and not A. -/
theorem C1_lru_eviction :
    (∀ (s b : Nat) (st : SimState) (r : AccessRecord) (ls : List CacheLine),
      r.kind ≠ AccessKind.instr →
      st.cache.getD (decodeIndex s b r.address) [] = ls →
      1 ≤ ls.length →
      (∀ x ∈ ls, lineWF x) →
      (∀ x ∈ ls, ¬(x.valid_bit = 1 ∧ x.tag = decodeTag s b r.address)) →
      (∀ x ∈ ls, x.lru ≠ 0) →
      ((processRecord s b st r).miss_count = st.miss_count + 1 ∧
       (processRecord s b st r).eviction_count = st.eviction_count + 1 ∧
       minLruIndex ls < ls.length ∧
       (∀ j, j < ls.length →
         (ls.getD (minLruIndex ls) initLine).lru ≤ (ls.getD j initLine).lru) ∧
       (∀ j, j < minLruIndex ls →
         (ls.getD (minLruIndex ls) initLine).lru < (ls.getD j initLine).lru) ∧
       (processRecord s b st r).cache
         = st.cache.set (decodeIndex s b r.address)
             (ls.set (minLruIndex ls)
               ⟨1, st.global_timer + 1, decodeTag s b r.address⟩))) ∧
    ((∃ x ∈ (processTrace 1 1 (initState (2 ^ 1) 2)
        [⟨AccessKind.load, 0, 1⟩, ⟨AccessKind.load, 8, 1⟩,
         ⟨AccessKind.load, 0, 1⟩, ⟨AccessKind.load, 16, 1⟩]).cache.getD 0 [],
        x.valid_bit = 1 ∧ x.tag = 0) ∧
     (∃ x ∈ (processTrace 1 1 (initState (2 ^ 1) 2)
        [⟨AccessKind.load, 0, 1⟩, ⟨AccessKind.load, 8, 1⟩,
         ⟨AccessKind.load, 0, 1⟩, ⟨AccessKind.load, 16, 1⟩]).cache.getD 0 [],
        x.valid_bit = 1 ∧ x.tag = 4) ∧
     ¬(∃ x ∈ (processTrace 1 1 (initState (2 ^ 1) 2)
        [⟨AccessKind.load, 0, 1⟩, ⟨AccessKind.load, 8, 1⟩,
         ⟨AccessKind.load, 0, 1⟩, ⟨AccessKind.load, 16, 1⟩]).cache.getD 0 [],
        x.valid_bit = 1 ∧ x.tag = 2) ∧
     (processTrace 1 1 (initState (2 ^ 1) 2)
        [⟨AccessKind.load, 0, 1⟩, ⟨AccessKind.load, 8, 1⟩,
         ⟨AccessKind.load, 0, 1⟩, ⟨AccessKind.load, 16, 1⟩]).eviction_count
       = 1) := by
  constructor
  · intro s b st r ls hk hls hlen hWF hnores hfree
    subst hls
    have hvalid : ∀ x ∈ st.cache.getD (decodeIndex s b r.address) [],
        x.valid_bit = 1 := by
      intro x hx
      rcases hWF x hx with ⟨-, h0, -⟩ | ⟨h1, -⟩
      · exact absurd h0 (hfree x hx)
      · exact h1
    have htag : ∀ x ∈ st.cache.getD (decodeIndex s b r.address) [],
        x.tag ≠ decodeTag s b r.address := by
      intro x hx heq
      exact hnores x hx ⟨hvalid x hx, heq⟩
    have hp1 : pass1 (decodeTag s b r.address) (st.global_timer + 1)
        (st.cache.getD (decodeIndex s b r.address) [])
        = ⟨st.cache.getD (decodeIndex s b r.address) [], false, 0, 0⟩ := by
      rcases pass1_spec (decodeTag s b r.address) (st.global_timer + 1)
          (st.cache.getD (decodeIndex s b r.address) [])
        with ⟨h, -⟩ | ⟨pre, l, post, hdec, -, hxt, -⟩
      · exact h
      · have hmem : l ∈ st.cache.getD (decodeIndex s b r.address) [] := by
          rw [hdec]
          exact List.mem_append.mpr (Or.inr (by simp))
        exact absurd hxt (htag l hmem)
    have hf : fillFree (decodeTag s b r.address) (st.global_timer + 1)
        (st.cache.getD (decodeIndex s b r.address) [])
        = ⟨st.cache.getD (decodeIndex s b r.address) [], false⟩ := by
      rcases fillFree_spec (decodeTag s b r.address) (st.global_timer + 1)
          (st.cache.getD (decodeIndex s b r.address) [])
        with ⟨h, -⟩ | ⟨pre, l, post, hdec, -, hl0, -⟩
      · exact h
      · have hmem : l ∈ st.cache.getD (decodeIndex s b r.address) [] := by
          rw [hdec]
          exact List.mem_append.mpr (Or.inr (by simp))
        exact absurd hl0 (hfree l hmem)
    have haccess := accessSet_of_evict hp1 hf
    have hne : st.cache.getD (decodeIndex s b r.address) [] ≠ [] := by
      intro h
      rw [h] at hlen
      simp at hlen
    obtain ⟨hvlt, hmin, hstrict⟩ :=
      minLruIndex_spec (st.cache.getD (decodeIndex s b r.address) []) hne
    have hidx : decodeIndex s b r.address < st.cache.length := by
      by_contra hge
      rw [List.getD_eq_default _ _ (Nat.le_of_not_lt hge)] at hlen
      simp at hlen
    have hstate := accessState_eq s b st r.address haccess
    cases hki : r.kind with
    | instr => exact absurd hki hk
    | load =>
      have hPR : processRecord s b st r = accessState s b st r.address := by
        simp [processRecord, hki]
      rw [hPR, hstate]
      exact ⟨rfl, rfl, hvlt, hmin, hstrict, rfl⟩
    | store =>
      have hPR : processRecord s b st r = accessState s b st r.address := by
        simp [processRecord, hki]
      rw [hPR, hstate]
      exact ⟨rfl, rfl, hvlt, hmin, hstrict, rfl⟩
    | modify =>
      have hPR : processRecord s b st r
          = modifyPass s b (accessState s b st r.address) r.address := by
        simp [processRecord, hki]
      have hget : (accessState s b st r.address).cache.getD
          (decodeIndex s b r.address) []
          = (st.cache.getD (decodeIndex s b r.address) []).set
              (minLruIndex (st.cache.getD (decodeIndex s b r.address) []))
              ⟨1, st.global_timer + 1, decodeTag s b r.address⟩ := by
        rw [hstate]
        exact getD_set_self st.cache hidx _ []
      have hnlmem : (⟨1, st.global_timer + 1, decodeTag s b r.address⟩ : CacheLine)
          ∈ (st.cache.getD (decodeIndex s b r.address) []).set
              (minLruIndex (st.cache.getD (decodeIndex s b r.address) []))
              ⟨1, st.global_timer + 1, decodeTag s b r.address⟩ := by
        obtain ⟨pre0, x0, post0, -, -, hset0⟩ :=
          set_decomp (st.cache.getD (decodeIndex s b r.address) []) hvlt
            (⟨1, st.global_timer + 1, decodeTag s b r.address⟩ : CacheLine)
        rw [hset0]
        exact List.mem_append.mpr (Or.inr (by simp))
      have hpass2 : pass2 (decodeTag s b r.address) (st.global_timer + 1)
          ((st.cache.getD (decodeIndex s b r.address) []).set
            (minLruIndex (st.cache.getD (decodeIndex s b r.address) []))
            ⟨1, st.global_timer + 1, decodeTag s b r.address⟩)
          = ((st.cache.getD (decodeIndex s b r.address) []).set
              (minLruIndex (st.cache.getD (decodeIndex s b r.address) []))
              ⟨1, st.global_timer + 1, decodeTag s b r.address⟩, 1) := by
        rcases pass2_spec (decodeTag s b r.address) (st.global_timer + 1)
            ((st.cache.getD (decodeIndex s b r.address) []).set
              (minLruIndex (st.cache.getD (decodeIndex s b r.address) []))
              ⟨1, st.global_timer + 1, decodeTag s b r.address⟩)
          with ⟨-, hnone⟩ | ⟨pre2, y, post2, hdec2, -, hy1, -, hp2⟩
        · exact absurd ⟨rfl, rfl⟩ (hnone _ hnlmem)
        · have hy : y = ⟨1, st.global_timer + 1, decodeTag s b r.address⟩ := by
            have hymem : y ∈ (st.cache.getD (decodeIndex s b r.address) []).set
                (minLruIndex (st.cache.getD (decodeIndex s b r.address) []))
                ⟨1, st.global_timer + 1, decodeTag s b r.address⟩ := by
              rw [hdec2]
              exact List.mem_append.mpr (Or.inr (by simp))
            rcases List.mem_or_eq_of_mem_set hymem with hin | heq
            · exact absurd hy1 (htag y hin)
            · exact heq
          subst hy
          rw [hp2]
          exact congrArg (fun L => (L, 1)) hdec2.symm
      have hp3 : pass2 (decodeTag s b r.address)
          (accessState s b st r.address).global_timer
          ((accessState s b st r.address).cache.getD (decodeIndex s b r.address) [])
          = ((st.cache.getD (decodeIndex s b r.address) []).set
              (minLruIndex (st.cache.getD (decodeIndex s b r.address) []))
              ⟨1, st.global_timer + 1, decodeTag s b r.address⟩, 1) := by
        rw [hget]
        exact hpass2
      have hmp := modifyPass_eq s b (accessState s b st r.address) r.address hp3
      rw [hPR, hmp]
      refine ⟨?_, ?_, hvlt, hmin, hstrict, ?_⟩
      · rw [hstate]
      · rw [hstate]
      · rw [hstate]
        exact List.set_set _ _ _ _
  · exact ⟨by decide, by decide, by decide, by decide⟩

/-- Witness for the universal part of C1 on a concrete full two-line set. -/
theorem C1_lru_eviction_witness :
    (processRecord 0 0
        (⟨[[⟨1, 5, 7⟩, ⟨1, 3, 9⟩]], 0, 0, 0, 10⟩ : SimState)
        ⟨AccessKind.load, 2, 1⟩).miss_count
      = (⟨[[⟨1, 5, 7⟩, ⟨1, 3, 9⟩]], 0, 0, 0, 10⟩ : SimState).miss_count + 1 ∧
    (processRecord 0 0
        (⟨[[⟨1, 5, 7⟩, ⟨1, 3, 9⟩]], 0, 0, 0, 10⟩ : SimState)
        ⟨AccessKind.load, 2, 1⟩).eviction_count
      = (⟨[[⟨1, 5, 7⟩, ⟨1, 3, 9⟩]], 0, 0, 0, 10⟩ : SimState).eviction_count + 1 :=
  ⟨(C1_lru_eviction.1 0 0 ⟨[[⟨1, 5, 7⟩, ⟨1, 3, 9⟩]], 0, 0, 0, 10⟩
      ⟨AccessKind.load, 2, 1⟩ [⟨1, 5, 7⟩, ⟨1, 3, 9⟩] (by decide) (by decide)
      (by decide) (by decide) (by decide) (by decide)).1,
   (C1_lru_eviction.1 0 0 ⟨[[⟨1, 5, 7⟩, ⟨1, 3, 9⟩]], 0, 0, 0, 10⟩
      ⟨AccessKind.load, 2, 1⟩ [⟨1, 5, 7⟩, ⟨1, 3, 9⟩] (by decide) (by decide)
      (by decide) (by decide) (by decide) (by decide)).2.1⟩

end Cachesim
